import Mathlib

/-!
Verification development for the dplm_backend analysis pipeline.

Shallow embedding of the targeted code-explanation pipeline:
dependency resolution (DependencyAnalyzerService), semantic indexing
(SemanticSearchService.indexProject), symbol extraction (AstParserService),
batched LLM explanation (OpenAIService / ExplanationService) and the
analysis-job state machine (AnalysisService / ExplanationService).

External collaborators (file system, LLM provider, JSON parser, database)
are modelled as explicit function parameters; all state mutation is made
explicit by state passing.  All recursion is structural so every
definition evaluates inside the kernel.
-/

namespace Dplm

/-! Section: dependency resolver (dependency-analyzer.service.ts).

`findDependenciesRecursive(projectPath, filePath, dependencies, visited,
currentDepth, maxDepth)` reads the file, extracts its local imports and
recurses.  The file system together with `extractImports`/`resolve*Import`
is abstracted as the import graph `g : String → List String` (a file that
fails to read or parse contributes no edges, exactly as the source's
try/catch).  `fuel` stands for `maxDepth - currentDepth`, so `fuel = 0`
is the source's `currentDepth >= maxDepth` guard.  `trace` records every
file that is actually expanded (read and scanned for imports); the source
performs that work exactly when the depth and `visited` guards pass. -/

structure DepState where
  deps : List String
  visited : List String
  trace : List String
deriving Repr, DecidableEq

/-- The source's `for (const importPath of imports)` loop: an import not
yet in `dependencies` is added and then expanded by `rec`. -/
def depsImportLoop (rec : String → DepState → DepState) :
    List String → DepState → DepState
  | [], st => st
  | imp :: rest, st =>
    if st.deps.contains imp then depsImportLoop rec rest st
    else depsImportLoop rec rest (rec imp { st with deps := st.deps ++ [imp] })

/-- Model of `findDependenciesRecursive`, with `fuel = maxDepth - currentDepth`. -/
def findDependenciesRecursive (g : String → List String) :
    Nat → String → DepState → DepState
  | 0 => fun _ st => st
  | fuel + 1 => fun fp st =>
    if st.visited.contains fp then st
    else
      depsImportLoop (findDependenciesRecursive g fuel) (g fp)
        { st with visited := st.visited ++ [fp], trace := st.trace ++ [fp] }

/-- Model of `findDependencies(projectPath, filePath, maxDepth)`: fresh `visited`
and `dependencies` sets per call. -/
def findDependencies (g : String → List String) (filePath : String)
    (maxDepth : Nat) : DepState :=
  findDependenciesRecursive g maxDepth filePath ⟨[], [], []⟩

/-- Model of `analyzeProjectDependencies(projectPath, filePaths, maxDepth)`:
one `findDependencies` call per seed file. -/
def analyzeProjectDependencies (g : String → List String)
    (filePaths : List String) (maxDepth : Nat) : List (String × List String) :=
  filePaths.map (fun fp => (fp, (findDependencies g fp maxDepth).deps))

/-- All files expanded (read + imports extracted) over a whole
`analyzeProjectDependencies` resolution, in order. -/
def analyzeProjectTrace (g : String → List String)
    (filePaths : List String) (maxDepth : Nat) : List String :=
  filePaths.flatMap (fun fp => (findDependencies g fp maxDepth).trace)

/-- Files reachable from `start` in at most `n` import hops. -/
def reachWithin (g : String → List String) (start : List String) : Nat → List String
  | 0 => start
  | n + 1 =>
    let r := reachWithin g start n
    r ++ r.flatMap g

/-- Concrete import graph used to exercise the dependency model:
`a` imports `b`, nothing else imports anything. -/
def depGraphC5 : String → List String :=
  fun fp => if fp = "a" then ["b"] else []

/-- Concrete import graph with a shared dependency: both seeds `a` and
`b` import `c`. -/
def depGraphC6 : String → List String :=
  fun fp => if fp = "a" then ["c"] else if fp = "b" then ["c"] else []

/-! Section: semantic index (semantic-search.service.ts, `indexProject`).

The walk result is `files` (absolute paths); `rel` models
`filePath.replace(projectPath + '/', '')`; `mtime` models
`(await fsp.stat(filePath)).mtime.getTime()`.  The `FileIndex` table is an
association list from relative path to the stored `lastModified`
timestamp; summary and embedding generation (the external provider calls)
happen exactly when `indexedFiles` is incremented, so `indexedFiles`
counts the generations.  The provider and the file system are modelled as
total, so the source's per-file error counter stays zero. -/

def lookupIndex : List (String × Nat) → String → Option Nat
  | [], _ => none
  | e :: rest, k => if e.1 = k then some e.2 else lookupIndex rest k

def upsertIndex : List (String × Nat) → String → Nat → List (String × Nat)
  | [], k, v => [(k, v)]
  | e :: rest, k, v => if e.1 = k then (k, v) :: rest else e :: upsertIndex rest k v

structure IndexOutcome where
  indexedFiles : Nat
  skippedFiles : Nat
  store : List (String × Nat)
deriving Repr, DecidableEq

/-- One iteration of `indexProject`'s file loop.  `snapshot` is the
`existingIndexMap` read once before the loop; the skip test is
`existingIndex.getTime() >= stats.mtime.getTime()`. -/
def indexFileStep (rel : String → String) (mtime : String → Nat)
    (snapshot : List (String × Nat)) (acc : IndexOutcome)
    (filePath : String) : IndexOutcome :=
  let relativePath := rel filePath
  match lookupIndex snapshot relativePath with
  | some lm =>
    if mtime filePath ≤ lm then
      { acc with skippedFiles := acc.skippedFiles + 1 }
    else
      { acc with indexedFiles := acc.indexedFiles + 1,
                 store := upsertIndex acc.store relativePath (mtime filePath) }
  | none =>
    { acc with indexedFiles := acc.indexedFiles + 1,
               store := upsertIndex acc.store relativePath (mtime filePath) }

def indexLoop (rel : String → String) (mtime : String → Nat)
    (snapshot : List (String × Nat)) :
    List String → IndexOutcome → IndexOutcome
  | [], acc => acc
  | f :: rest, acc =>
    indexLoop rel mtime snapshot rest (indexFileStep rel mtime snapshot acc f)

/-- Model of `SemanticSearchService.indexProject` over the files found by the walk,
starting from the persisted index `db`. -/
def indexProject (rel : String → String) (mtime : String → Nat)
    (files : List String) (db : List (String × Nat)) : IndexOutcome :=
  indexLoop rel mtime db files ⟨0, 0, db⟩

/-! Section: symbol extraction (ast-parser.service.ts).

`content.split(/\r?\n/)` is modelled character by character; the regexes
`/def\s+(\w+)\s*\(/` and `/class\s+(\w+)/` (an external regex engine) are
abstracted as name matchers `String → Option String` — the produced line
ranges and code slices do not depend on the matched name. -/

/-- Model of `content.split` on newlines: an accumulator (current line is reversed). -/
def splitNl : List Char → List Char → List (List Char)
  | [], acc => [acc.reverse]
  | c :: rest, acc =>
    if c = '\n' then acc.reverse :: splitNl rest [] else splitNl rest (c :: acc)

/-- Drop the carriage return a `\r\n` separator leaves at the line end,
so that `splitLines` agrees with `content.split(/\r?\n/)`. -/
def stripCr (l : List Char) : List Char :=
  match l.getLast? with
  | some c => if c = '\r' then l.dropLast else l
  | none => l

def splitLines (s : String) : List String :=
  (splitNl s.data []).map (fun l => String.mk (stripCr l))

/-- JavaScript `String.prototype.trim`. -/
def jsTrim (s : String) : String :=
  String.mk
    (((s.data.dropWhile Char.isWhitespace).reverse.dropWhile
        Char.isWhitespace).reverse)

def strStartsWith (s p : String) : Bool := p.data.isPrefixOf s.data

/-- Model of `line.length - line.trimStart().length`. -/
def getIndentLevel (line : String) : Nat :=
  line.data.length - (line.data.dropWhile Char.isWhitespace).length

/-- The `while` loop of `findPythonBlockEnd`, with enough fuel to reach
the end of the file. -/
def findPythonBlockEndAux (lines : List String) (indentLevel : Nat) :
    Nat → Nat → Nat
  | 0, i => i
  | fuel + 1, i =>
    match lines.get? i with
    | none => i
    | some line =>
      if jsTrim line = "" then findPythonBlockEndAux lines indentLevel fuel (i + 1)
      else if getIndentLevel line ≤ indentLevel then i
      else findPythonBlockEndAux lines indentLevel fuel (i + 1)

def findPythonBlockEnd (lines : List String) (startIndex : Nat) : Nat :=
  findPythonBlockEndAux lines (getIndentLevel (lines.getD startIndex ""))
    lines.length (startIndex + 1)

/-- The source's `CodeSymbol['type']` union. -/
inductive SymbolKind
  | function
  | method
  | classDecl
  | interfaceDecl
  | typeDecl
  | variableDecl
deriving Repr, DecidableEq

structure CodeSymbol where
  name : String
  type : SymbolKind
  lineStart : Nat
  lineEnd : Nat
  code : String
  language : String
deriving Repr, DecidableEq

/-- Model of `lines.slice(a, b).join` with newlines (0-based, end exclusive). -/
def sliceJoin (lines : List String) (a b : Nat) : String :=
  String.intercalate "\n" ((lines.drop a).take (b - a))

/-- The text of a file spanned by 1-based inclusive lines `a..b`. -/
def lineSpan (lines : List String) (a b : Nat) : String :=
  String.intercalate "\n" ((lines.drop (a - 1)).take (b + 1 - a))

/-- Model of `parsePythonFile`: indentation-heuristic extraction of `def ` /
`class ` blocks. -/
def parsePythonFile (matchDef matchCls : String → Option String)
    (content : String) : List CodeSymbol :=
  let lines := splitLines content
  (List.range lines.length).filterMap (fun i =>
    let line := jsTrim (lines.getD i "")
    if strStartsWith line "def " then
      match matchDef line with
      | some name =>
        some { name := name
               type := .function
               lineStart := i + 1
               lineEnd := findPythonBlockEnd lines i
               code := sliceJoin lines i (findPythonBlockEnd lines i)
               language := "python" }
      | none => none
    else if strStartsWith line "class " then
      match matchCls line with
      | some name =>
        some { name := name
               type := .classDecl
               lineStart := i + 1
               lineEnd := findPythonBlockEnd lines i
               code := sliceJoin lines i (findPythonBlockEnd lines i)
               language := "python" }
      | none => none
    else none)

/-- Model of `createSymbol` of the TypeScript/JavaScript path.  `startLine0` and
`endLine0` are the 0-based line numbers the `typescript` library returns
for `node.getStart()` and `node.getEnd()`. -/
def createSymbol (name : String) (k : SymbolKind) (startLine0 endLine0 : Nat)
    (content : String) : CodeSymbol :=
  let lines := splitLines content
  { name := name
    type := k
    lineStart := startLine0 + 1
    lineEnd := endLine0 + 1
    code := sliceJoin lines startLine0 (endLine0 + 1)
    language := "typescript" }

/-! Section: batched LLM explanation (openai.service.ts).

`callOpenAI` + `JSON.parse` are external; a raw provider response is
abstracted as `RawResponse`: `unparseable` when `JSON.parse` throws,
`nonArray` when it yields a non-array, `arr items` when it yields an
array whose elements may miss fields (`Option`).  A numeric `complexity`
of `0` is JavaScript-falsy and becomes `undefined`; string complexities
are outside the model. -/

structure PartialExpl where
  summary : Option String
  detailed : Option String
  complexity : Option Int
deriving Repr, DecidableEq

inductive RawResponse
  | unparseable
  | nonArray
  | arr (items : List PartialExpl)
deriving Repr, DecidableEq

structure ExplanationResponse where
  summary : String
  detailed : String
  complexity : Option Int
deriving Repr, DecidableEq

/-- JavaScript `v || d` for string-or-undefined `v` (empty string is
falsy). -/
def jsStrOr (v : Option String) (d : String) : String :=
  match v with
  | some s => if s = "" then d else s
  | none => d

/-- Model of `OpenAIService.parseMultipleResponse(response, expectedCount)`. -/
def parseMultipleResponse (response : RawResponse) (expectedCount : Nat) :
    List ExplanationResponse :=
  match response with
  | .arr items =>
    items.mapIdx (fun i item =>
      { summary := jsStrOr item.summary
          ("Объяснение " ++ toString (i + 1) ++ " недоступно")
        detailed := jsStrOr item.detailed "Подробное объяснение недоступно"
        complexity :=
          match item.complexity with
          | some c => if c = 0 then none else some c
          | none => none })
  | _ =>
    (List.range expectedCount).map (fun i =>
      { summary := "Объяснение " ++ toString (i + 1) ++ " недоступно"
        detailed := "Объяснение недоступно"
        complexity := none })

/-- Model of `OpenAIService.explainMultipleSymbols`: fails when no API key is
configured or the provider call throws; otherwise parses the raw
response against the batch size. -/
def explainMultipleSymbols (apiKeyPresent : Bool)
    (callRaw : List CodeSymbol → Except Unit RawResponse)
    (symbols : List CodeSymbol) : Except Unit (List ExplanationResponse) :=
  if apiKeyPresent then
    match callRaw symbols with
    | .ok raw => .ok (parseMultipleResponse raw symbols.length)
    | .error e => .error e
  else .error ()

/-! Section: analysis-job state machine
(analysis.service.ts + explanation.service.ts `performExplanation`)

The job record lives in the database; `writes` records every update that
contains a `progress` object, as the pair (status in effect after the
write, `progress.percentage` written).  `rows` are the persisted
`CodeExplanation` rows.  `cps` counts executed cancellation checkpoints;
an external `cancelAnalysis` call is scheduled by `cancelAt`: it lands
just before checkpoint number `cancelAt`.  Exceptions are explicit:
loops return a flag telling whether an `AnalysisCancellationError` is
propagating. -/

inductive JobStatus
  | pending
  | processing
  | completed
  | failed
  | cancelled
deriving Repr, DecidableEq

structure JobProgress where
  currentStep : String
  percentage : Nat
  processedFiles : Nat
  totalFiles : Nat
deriving Repr, DecidableEq

structure ResultPayload where
  filesAnalyzed : Nat
  totalSymbols : Nat
  explainedSymbols : Nat
  targetedAnalysis : Bool
  queryText : Option String
  explanation : Option String
deriving Repr, DecidableEq

structure JobRecord where
  status : JobStatus
  progress : JobProgress
  errorMsg : Option String
  result : Option ResultPayload
deriving Repr, DecidableEq

structure ExplRow where
  filePath : String
  symbolName : String
  symbolType : SymbolKind
  lineStart : Nat
  lineEnd : Nat
  summary : String
  detailed : String
  complexity : Option Int
deriving Repr, DecidableEq

structure ParsedFile where
  filePath : String
  language : String
  symbols : List CodeSymbol
deriving Repr, DecidableEq

structure SimState where
  report : JobRecord
  writes : List (JobStatus × Nat)
  rows : List ExplRow
  cps : Nat
deriving Repr, DecidableEq

/-- JavaScript `v || d` for number-or-undefined `v` (`0` is falsy): the
cap expression `options.maxSymbols || 50`. -/
def jsOrNat (v : Option Nat) (d : Nat) : Nat :=
  match v with
  | some n => if n = 0 then d else n
  | none => d

/-- Model of `Math.round(p / t * 100)` for naturals: `⌊(100p/t) + 1/2⌋`. -/
def jsRoundPct (p t : Nat) : Nat := (200 * p + t) / (2 * t)

/-- Model of the `symbols.slice(i, i + n)` batching loop, fuelled by the list length. -/
def chunksAux (n : Nat) : Nat → List α → List (List α)
  | 0, _ => []
  | _ + 1, [] => []
  | fuel + 1, x :: xs => (x :: xs).take n :: chunksAux n fuel ((x :: xs).drop n)

def chunksOf (n : Nat) (l : List α) : List (List α) := chunksAux n l.length l

/-- Model of `updateProgress`: a progress-only update; the status is unchanged. -/
def simUpdateProgress (s : SimState) (step : String)
    (pct processed total : Nat) : SimState :=
  { s with
    report := { s.report with progress := ⟨step, pct, processed, total⟩ }
    writes := s.writes ++ [(s.report.status, pct)] }

/-- The `catch` branch of `ExplanationService.performExplanation`: it
updates only `status` and `error` (no progress object), for every
exception — it does not test for `AnalysisCancellationError`. -/
def simSetFailed (s : SimState) (msg : String) : SimState :=
  { s with report := { s.report with status := .failed, errorMsg := some msg } }

/-- The final success update of `performExplanation`: `COMPLETED`,
`result` payload, percentage 100. -/
def simComplete (s : SimState) (payload : ResultPayload)
    (processed total : Nat) : SimState :=
  { s with
    report := { s.report with
                  status := .completed
                  result := some payload
                  progress := ⟨"Completed", 100, processed, total⟩ }
    writes := s.writes ++ [(.completed, 100)] }

/-- Model of `AnalysisService.cancelAnalysis`: refuses on COMPLETED/FAILED,
otherwise writes CANCELLED with a zeroed progress object. -/
def cancelAnalysisApply (s : SimState) : SimState :=
  if s.report.status = .completed ∨ s.report.status = .failed then s
  else
    { s with
      report := { s.report with
                    status := .cancelled
                    progress := ⟨"Cancelled", 0, 0, 0⟩ }
      writes := s.writes ++ [(.cancelled, 0)] }

/-- Model of `checkCancellation`: the externally scheduled cancel (if due) lands
first, then the status is read; CANCELLED raises
`AnalysisCancellationError` (the returned flag). -/
def simCheckCancellation (cancelAt : Option Nat) (s : SimState) :
    SimState × Bool :=
  let s1 := match cancelAt with
            | some k => if s.cps = k then cancelAnalysisApply s else s
            | none => s
  let s2 := { s1 with cps := s1.cps + 1 }
  (s2, decide (s2.report.status = .cancelled))

def mkRow (filePath : String) (e : ExplanationResponse) (sym : CodeSymbol) :
    ExplRow :=
  { filePath := filePath
    symbolName := sym.name
    symbolType := sym.type
    lineStart := sym.lineStart
    lineEnd := sym.lineEnd
    summary := e.summary
    detailed := e.detailed
    complexity := e.complexity }

/-- The batch loop of `ExplanationService.explainSymbols`: cancellation
check before each batch (a cancellation rethrows), provider errors are
caught and return the count explained so far; saving a batch whose
explanation list is longer than the batch itself dereferences
`batch[index] = undefined` and the resulting `TypeError` is caught the
same way. -/
def explainBatches (cancelAt : Option Nat) (api : Bool)
    (callRaw : List CodeSymbol → Except Unit RawResponse)
    (filePath : String) :
    List (List CodeSymbol) → Nat → SimState → SimState × Nat × Bool
  | [], count, s => (s, count, false)
  | batch :: rest, count, s =>
    let cc := simCheckCancellation cancelAt s
    if cc.2 then (cc.1, count, true)
    else
      match explainMultipleSymbols api callRaw batch with
      | .error _ => (cc.1, count, false)
      | .ok explanations =>
        if batch.length < explanations.length then (cc.1, count, false)
        else
          let s2 := { cc.1 with
            rows := cc.1.rows ++
              (explanations.zip batch).map (fun pr => mkRow filePath pr.1 pr.2) }
          explainBatches cancelAt api callRaw filePath rest
            (count + explanations.length) s2

/-- Model of `ExplanationService.explainSymbols`: no-op without an API key; takes
`symbols.slice(0, options.maxSymbols || 50)` and processes it in batches
of 5. -/
def explainSymbolsRun (cancelAt : Option Nat) (api : Bool)
    (callRaw : List CodeSymbol → Except Unit RawResponse)
    (maxSymbols : Option Nat) (pf : ParsedFile) (s : SimState) :
    SimState × Nat × Bool :=
  if api = false then (s, 0, false)
  else
    let symbols := pf.symbols.take (jsOrNat maxSymbols 50)
    if symbols.length = 0 then (s, 0, false)
    else explainBatches cancelAt api callRaw pf.filePath (chunksOf 5 symbols) 0 s

/-- The per-file loop of `performExplanation`: explain, bump
`processedFiles`, write `percentage = Math.round(processed/total*100)`.
A propagating cancellation aborts the loop. -/
def explainLoop (cancelAt : Option Nat) (api : Bool)
    (callRaw : List CodeSymbol → Except Unit RawResponse)
    (maxSymbols : Option Nat) (totalFiles : Nat) :
    List ParsedFile → Nat → Nat → SimState → SimState × Nat × Nat × Bool
  | [], processed, explained, s => (s, processed, explained, false)
  | pf :: rest, processed, explained, s =>
    let r := explainSymbolsRun cancelAt api callRaw maxSymbols pf s
    if r.2.2 then (r.1, processed, explained, true)
    else
      let s2 := simUpdateProgress r.1 ("Explaining " ++ pf.filePath)
        (jsRoundPct (processed + 1) totalFiles) (processed + 1) totalFiles
      explainLoop cancelAt api callRaw maxSymbols totalFiles rest
        (processed + 1) (explained + r.2.1) s2

/-- Static environment of one `performExplanation` run: the semantic
search result, the import graph, the parser, the provider and the
externally scheduled cancellation. -/
structure ExpEnv where
  queryText : Option String
  userIdPresent : Bool
  reportExists : Bool
  searchHits : List String
  importsOf : String → List String
  parseProjectResult : List ParsedFile
  parseFileResult : String → Option ParsedFile
  apiAvailable : Bool
  callRaw : List CodeSymbol → Except Unit RawResponse
  synthesisResult : Except Unit String
  maxSymbols : Option Nat
  cancelAt : Option Nat

/-- JavaScript `Set` insertion (first-insertion order preserved). -/
def insertUnique (l : List String) (x : String) : List String :=
  if l.contains x then l else l ++ [x]

/-- Model of `allFilePaths`: for each `[filePath, deps]` of the dependency map add
the file, then its dependencies. -/
def collectAllFilePaths (deps : List (String × List String)) : List String :=
  deps.foldl (fun acc e => e.2.foldl insertUnique (insertUnique acc e.1)) []

/-- The file-selection phase of `performExplanation`: full parse without
a query; with a query, a missing report or missing `userId` throws, zero
search hits fall back to the full parse, otherwise the hits are expanded
through `analyzeProjectDependencies` at depth 1 and each file is parsed
individually (per-file parse failures skipped). -/
def computeParsedFiles (env : ExpEnv) : Except Unit (List ParsedFile) :=
  match env.queryText with
  | none => .ok env.parseProjectResult
  | some _ =>
    if env.reportExists = false then .error ()
    else if env.userIdPresent = false then .error ()
    else if env.searchHits.length = 0 then .ok env.parseProjectResult
    else
      let deps := analyzeProjectDependencies env.importsOf env.searchHits 1
      .ok ((collectAllFilePaths deps).filterMap env.parseFileResult)

/-- The result payload: for a targeted run the cohesive synthesis is
attempted and its provider error is swallowed — the `explanation` field
is simply omitted. -/
def mkPayload (env : ExpEnv) (filesCount totalSymbols explained : Nat) :
    ResultPayload :=
  let base : ResultPayload :=
    { filesAnalyzed := filesCount
      totalSymbols := totalSymbols
      explainedSymbols := explained
      targetedAnalysis := env.queryText.isSome
      queryText := env.queryText
      explanation := none }
  if env.queryText.isSome then
    match env.synthesisResult with
    | .ok text => { base with explanation := some text }
    | .error _ => base
  else base

/-- Model of `ExplanationService.performExplanation` (the query-aware version):
select files, write the `Analyzing code structure` progress (percentage
0), run the per-file loop, then either the catch-all FAILED update (also
for cancellations) or the COMPLETED update with the result payload. -/
def performExplanation (env : ExpEnv) (s : SimState) : SimState :=
  match computeParsedFiles env with
  | .error _ => simSetFailed s "analysis report lookup failed"
  | .ok parsedFiles =>
    let totalFiles := parsedFiles.length
    let totalSymbols := (parsedFiles.map (fun f => f.symbols.length)).sum
    let s1 := simUpdateProgress s "Analyzing code structure" 0 0 totalFiles
    let r := explainLoop env.cancelAt env.apiAvailable env.callRaw
      env.maxSymbols totalFiles parsedFiles 0 0 s1
    if r.2.2.2 then simSetFailed r.1 "Analysis was cancelled"
    else simComplete r.1 (mkPayload env totalFiles totalSymbols r.2.2.1)
      r.2.1 totalFiles

/-- Model of `AnalysisService.updateReportStatus`: status plus a progress object
with zeroed file counters. -/
def simUpdateReportStatus (s : SimState) (st : JobStatus) (step : String)
    (pct : Nat) : SimState :=
  { s with
    report := { s.report with
                  status := st
                  progress := ⟨step, pct, 0, 0⟩ }
    writes := s.writes ++ [(st, pct)] }

/-- Model of `AnalysisService.performAnalysis` for an EXPLANATION job: checkpoint,
PROCESSING 0, `performExplanationAnalysis` writes PROCESSING 10, then
`explainProjectForReport → performExplanation`, a final checkpoint, and
the COMPLETED 100 update.  Its catch preserves CANCELLED (it returns
without writing on an `AnalysisCancellationError`). -/
def performAnalysisExplanation (env : ExpEnv) (s0 : SimState) : SimState :=
  let c1 := simCheckCancellation env.cancelAt s0
  if c1.2 then c1.1
  else
    let s2 := simUpdateReportStatus c1.1 .processing "Starting analysis" 0
    let s3 := simUpdateReportStatus s2 .processing
      "Generating code explanations" 10
    let s4 := performExplanation env s3
    let c2 := simCheckCancellation env.cancelAt s4
    if c2.2 then c2.1
    else simUpdateReportStatus c2.1 .completed "Analysis completed" 100

/-- The job as created by `startAnalysis`: PENDING with zeroed progress
(that create is the first progress write). -/
def initState : SimState :=
  { report := { status := .pending
                progress := ⟨"Initializing analysis", 0, 0, 0⟩
                errorMsg := none
                result := none }
    writes := [(.pending, 0)]
    rows := []
    cps := 0 }

/-- The percentages of the progress writes made while the job record
showed PROCESSING. -/
def procPcts (ws : List (JobStatus × Nat)) : List Nat :=
  (ws.filter (fun w => w.1 == JobStatus.processing)).map (fun w => w.2)

/-! Concrete instances used by the evaluations and witnesses. -/

def symA : CodeSymbol :=
  { name := "f"
    type := .function
    lineStart := 1
    lineEnd := 2
    code := "function f()"
    language := "typescript" }

def symB : CodeSymbol :=
  { name := "g"
    type := .function
    lineStart := 3
    lineEnd := 4
    code := "function g()"
    language := "typescript" }

/-- A cooperative provider: a well-formed JSON array with one complete
item per requested symbol. -/
def goodRaw : List CodeSymbol → Except Unit RawResponse :=
  fun b => .ok (.arr (b.map (fun _ => ⟨some "s", some "d", none⟩)))

/-- C1 scenario: a full (no-query) EXPLANATION job over one parsed file
with one symbol; the external cancel lands before checkpoint 1, i.e.
before the first symbol batch. -/
def envC1 : ExpEnv :=
  { queryText := none
    userIdPresent := true
    reportExists := true
    searchHits := []
    importsOf := fun _ => []
    parseProjectResult := [⟨"a.ts", "typescript", [symA]⟩]
    parseFileResult := fun _ => none
    apiAvailable := true
    callRaw := goodRaw
    synthesisResult := .ok "text"
    maxSymbols := none
    cancelAt := some 1 }

/-- C3 scenario: same job, no cancellation, one parsed file without
symbols. -/
def envC3 : ExpEnv :=
  { envC1 with
      parseProjectResult := [⟨"a.ts", "typescript", []⟩]
      cancelAt := none }

/-- C4 scenario: a targeted run whose per-symbol phase succeeds and whose
cohesive synthesis throws a provider error. -/
def envC4 : ExpEnv :=
  { envC1 with
      queryText := some "how does auth work"
      searchHits := ["a.ts"]
      parseFileResult := fun p =>
        if p = "a.ts" then some ⟨"a.ts", "typescript", [symA]⟩ else none
      synthesisResult := .error ()
      cancelAt := none }

/-- C8 scenario: a targeted run whose semantic retrieval returns zero
hits. -/
def envC8 : ExpEnv :=
  { envC1 with
      queryText := some "how does auth work"
      searchHits := []
      cancelAt := none }

/-- A generic state with the job already PROCESSING, as
`performExplanation` is entered. -/
def processingState : SimState :=
  { report := { status := .processing
                progress := ⟨"Starting analysis", 0, 0, 0⟩
                errorMsg := none
                result := none }
    writes := []
    rows := []
    cps := 0 }

/-- Concrete Python source used to exercise the extraction model. -/
def pyContentW : String := "def f():\n  return 1"

/-- The symbol the indentation heuristic extracts from `pyContentW`. -/
def pySymW : CodeSymbol :=
  { name := "f"
    type := .function
    lineStart := 1
    lineEnd := 2
    code := "def f():\n  return 1"
    language := "python" }

/-! Lemmas about the dependency model. -/

theorem reachWithin_mono_succ (g : String → List String) (start : List String)
    (n : Nat) {x : String} (hx : x ∈ reachWithin g start n) :
    x ∈ reachWithin g start (n + 1) := by
  simp only [reachWithin, List.mem_append]
  exact Or.inl hx

theorem reachWithin_mono (g : String → List String) (start : List String)
    {m n : Nat} (hmn : m ≤ n) {x : String} (hx : x ∈ reachWithin g start m) :
    x ∈ reachWithin g start n := by
  induction n with
  | zero => simpa [Nat.le_zero.mp hmn] using hx
  | succ k ih =>
    rcases Nat.lt_or_ge m (k + 1) with h | h
    · exact reachWithin_mono_succ g start k (ih (Nat.lt_succ_iff.mp h))
    · have hm : m = k + 1 := Nat.le_antisymm hmn h
      subst hm; exact hx

theorem reachWithin_step (g : String → List String) (start : List String)
    (n : Nat) {x y : String} (hx : x ∈ reachWithin g start n) (hy : y ∈ g x) :
    y ∈ reachWithin g start (n + 1) := by
  simp only [reachWithin, List.mem_append, List.mem_flatMap]
  exact Or.inr ⟨x, hx, hy⟩

/-- The import loop preserves a dependency-set invariant `R`: every
listed import satisfies `P` (and `R`), and expanding a `P`-import
preserves `R` over the collected dependencies. -/
theorem depsImportLoop_deps_inv (rec : String → DepState → DepState)
    (P R : String → Prop)
    (hrec : ∀ imp st, P imp → (∀ x ∈ st.deps, R x) →
      ∀ x ∈ (rec imp st).deps, R x) :
    ∀ l : List String, (∀ imp ∈ l, P imp ∧ R imp) →
      ∀ st, (∀ x ∈ st.deps, R x) →
        ∀ x ∈ (depsImportLoop rec l st).deps, R x := by
  intro l
  induction l with
  | nil => intro _ st hst x hx; exact hst x (by simpa [depsImportLoop] using hx)
  | cons imp rest ihl =>
    intro hl st hst x hx
    by_cases hc : st.deps.contains imp
    · rw [depsImportLoop, if_pos hc] at hx
      exact ihl (fun i hi => hl i (List.mem_cons_of_mem _ hi)) st hst x hx
    · rw [depsImportLoop, if_neg hc] at hx
      have hst2 : ∀ y ∈ ({ st with deps := st.deps ++ [imp] } : DepState).deps, R y := by
        intro y hy
        rcases List.mem_append.mp hy with h | h
        · exact hst y h
        · have hy2 : y = imp := by simpa using h
          subst hy2; exact (hl y (List.mem_cons_self _ _)).2
      have hst3 := hrec imp { st with deps := st.deps ++ [imp] }
        (hl imp (List.mem_cons_self _ _)).1 hst2
      exact ihl (fun i hi => hl i (List.mem_cons_of_mem _ hi)) _ hst3 x hx

/-- Every dependency collected by the bounded recursive expansion of a
node reachable within `d - fuel` hops is itself reachable within `d`
hops. -/
theorem findDependenciesRecursive_reach (g : String → List String)
    (seed : String) (d : Nat) :
    ∀ fuel, fuel ≤ d → ∀ fp st,
      fp ∈ reachWithin g [seed] (d - fuel) →
      (∀ x ∈ st.deps, x ∈ reachWithin g [seed] d) →
      ∀ x ∈ (findDependenciesRecursive g fuel fp st).deps,
        x ∈ reachWithin g [seed] d := by
  intro fuel
  induction fuel with
  | zero =>
    intro _ fp st _ hst x hx
    exact hst x (by simpa [findDependenciesRecursive] using hx)
  | succ k ih =>
    intro hk fp st hfp hst x hx
    by_cases hv : st.visited.contains fp
    · simp only [findDependenciesRecursive] at hx
      rw [if_pos hv] at hx
      exact hst x hx
    · simp only [findDependenciesRecursive] at hx
      rw [if_neg hv] at hx
      have harith : d - (k + 1) + 1 = d - k := by omega
      have himp : ∀ imp ∈ g fp, imp ∈ reachWithin g [seed] (d - k) := by
        intro imp himp
        have := reachWithin_step g [seed] (d - (k + 1)) hfp himp
        rwa [harith] at this
      refine depsImportLoop_deps_inv (findDependenciesRecursive g k)
        (fun y => y ∈ reachWithin g [seed] (d - k))
        (fun y => y ∈ reachWithin g [seed] d) ?_ (g fp)
        (fun imp h => ⟨himp imp h,
          reachWithin_mono g [seed] (Nat.sub_le d k) (himp imp h)⟩)
        { st with visited := st.visited ++ [fp], trace := st.trace ++ [fp] }
        (fun y hy => hst y hy) x hx
      intro imp st' hP hst'
      exact ih (Nat.le_of_succ_le hk) imp st' hP hst'

/-- The import loop preserves any state invariant preserved both by
adding a dependency and by the recursive expander. -/
theorem depsImportLoop_pres (rec : String → DepState → DepState)
    (Q : DepState → Prop)
    (hdeps : ∀ st imp, Q st → Q { st with deps := st.deps ++ [imp] })
    (hrec : ∀ imp st, Q st → Q (rec imp st)) :
    ∀ l st, Q st → Q (depsImportLoop rec l st) := by
  intro l
  induction l with
  | nil => intro st h; simpa [depsImportLoop] using h
  | cons imp rest ihl =>
    intro st h
    by_cases hc : st.deps.contains imp
    · rw [depsImportLoop, if_pos hc]; exact ihl st h
    · rw [depsImportLoop, if_neg hc]
      exact ihl _ (hrec imp _ (hdeps st imp h))

/-- The recursive expansion preserves any state invariant preserved by
adding a dependency and by marking an unvisited file visited. -/
theorem findDependenciesRecursive_pres (g : String → List String)
    (Q : DepState → Prop)
    (hdeps : ∀ st imp, Q st → Q { st with deps := st.deps ++ [imp] })
    (hexpand : ∀ st fp, Q st → ¬st.visited.contains fp = true →
      Q { st with visited := st.visited ++ [fp], trace := st.trace ++ [fp] }) :
    ∀ fuel fp st, Q st → Q (findDependenciesRecursive g fuel fp st) := by
  intro fuel
  induction fuel with
  | zero => intro fp st h; simpa [findDependenciesRecursive] using h
  | succ k ih =>
    intro fp st h
    simp only [findDependenciesRecursive]
    by_cases hv : st.visited.contains fp
    · rw [if_pos hv]; exact h
    · rw [if_neg hv]
      exact depsImportLoop_pres (findDependenciesRecursive g k) Q hdeps
        (fun imp st' h' => ih imp st' h') (g fp) _ (hexpand st fp h hv)

theorem findDependenciesRecursive_visited_nodup (g : String → List String)
    (fuel : Nat) (fp : String) (st : DepState) (h : st.visited.Nodup) :
    (findDependenciesRecursive g fuel fp st).visited.Nodup := by
  refine findDependenciesRecursive_pres g (fun s => s.visited.Nodup) ?_ ?_ fuel fp st h
  · intro s imp hs; exact hs
  · intro s fp' hs hnc
    have hnotmem : fp' ∉ s.visited := by simpa using hnc
    exact List.Nodup.append hs (List.nodup_singleton fp')
      (by simpa [List.disjoint_singleton] using hnotmem)

theorem findDependenciesRecursive_trace_eq_visited (g : String → List String)
    (fuel : Nat) (fp : String) (st : DepState) (h : st.trace = st.visited) :
    (findDependenciesRecursive g fuel fp st).trace =
      (findDependenciesRecursive g fuel fp st).visited := by
  refine findDependenciesRecursive_pres g (fun s => s.trace = s.visited) ?_ ?_ fuel fp st h
  · intro s imp hs; exact hs
  · intro s fp' hs _; simp [hs]

/-- C5: for every dependency expansion started from one seed file with
`maxDepth = d`, every file in the returned dependency set is reachable
from the seed in at most `d` import hops, and within one expansion each
file is expanded (visited) at most once, so cyclic imports cannot cause
repeated visits. -/
theorem claim_C5_depth_bound_and_single_visit (g : String → List String)
    (seed : String) (d : Nat) :
    (∀ x ∈ (findDependencies g seed d).deps, x ∈ reachWithin g [seed] d) ∧
    (findDependencies g seed d).visited.Nodup := by
  constructor
  · intro x hx
    refine findDependenciesRecursive_reach g seed d d le_rfl seed ⟨[], [], []⟩
      ?_ ?_ x hx
    · simp [Nat.sub_self, reachWithin]
    · intro y hy; simp at hy
  · exact findDependenciesRecursive_visited_nodup g d seed ⟨[], [], []⟩ (by simp)

/-- C5 witness: on the concrete graph where `a` imports `b`, the file `b`
collected by `findDependencies` at depth 1 is indeed reachable within one
hop, and the visited set of the expansion has no duplicates. -/
theorem claim_C5_witness :
    ("b" ∈ reachWithin depGraphC5 ["a"] 1) ∧
    (findDependencies depGraphC5 "a" 1).visited.Nodup :=
  ⟨(claim_C5_depth_bound_and_single_visit depGraphC5 "a" 1).1 "b" (by decide),
   (claim_C5_depth_bound_and_single_visit depGraphC5 "a" 1).2⟩

/-- C6 counterexample: in `analyzeProjectDependencies` the `visited` set
is created afresh inside `findDependencies` for every seed, so a file
reachable from two seeds is expanded once per seed.  With seeds `a` and
`b` both importing `c` and `maxDepth = 2`, the file `c` is read and
scanned for imports twice over the whole resolution, refuting "each
project file is expanded at most once in total". -/
theorem claim_C6_counterexample :
    (analyzeProjectTrace depGraphC6 ["a", "b"] 2).count "c" = 2 := by decide

/-- C6 (amended): within a single seed's `findDependencies` expansion
each file is expanded at most once (the per-call `visited` set has no
duplicates); across different seeds of `analyzeProjectDependencies` a
shared file may be expanded once per seed. -/
theorem claim_C6_amended (g : String → List String) (fp : String) (d : Nat) :
    (findDependencies g fp d).trace.Nodup := by
  rw [findDependencies,
    findDependenciesRecursive_trace_eq_visited g d fp ⟨[], [], []⟩ rfl]
  exact findDependenciesRecursive_visited_nodup g d fp ⟨[], [], []⟩ (by simp)

/-! Lemmas about the semantic index. -/

theorem lookupIndex_upsertIndex_self (st : List (String × Nat)) (k : String)
    (v : Nat) : lookupIndex (upsertIndex st k v) k = some v := by
  induction st with
  | nil => simp [upsertIndex, lookupIndex]
  | cons e rest ih =>
    by_cases h : e.1 = k
    · simp [upsertIndex, h, lookupIndex]
    · simp [upsertIndex, h, lookupIndex, ih]

theorem lookupIndex_upsertIndex_ne (st : List (String × Nat))
    {k k' : String} (v : Nat) (hne : k ≠ k') :
    lookupIndex (upsertIndex st k' v) k = lookupIndex st k := by
  induction st with
  | nil => simp [upsertIndex, lookupIndex, Ne.symm hne]
  | cons e rest ih =>
    by_cases h : e.1 = k'
    · have hek : ¬e.1 = k := by rw [h]; exact Ne.symm hne
      simp [upsertIndex, h, lookupIndex, Ne.symm hne, hek]
    · by_cases hek : e.1 = k
      · simp only [upsertIndex]
        rw [if_neg h]
        simp [lookupIndex, hek]
      · simp [upsertIndex, h, lookupIndex, hek, ih]

/-- Files whose relative path differs from `k` never change the stored
entry at `k`. -/
theorem indexLoop_store_untouched (rel : String → String)
    (mtime : String → Nat) (snapshot : List (String × Nat)) (k : String) :
    ∀ (files : List String) (acc : IndexOutcome), (∀ f ∈ files, rel f ≠ k) →
      lookupIndex ((indexLoop rel mtime snapshot files acc).store) k =
        lookupIndex acc.store k := by
  intro files
  induction files with
  | nil => intro acc _; simp [indexLoop]
  | cons f rest ih =>
    intro acc h
    simp only [indexLoop]
    rw [ih (indexFileStep rel mtime snapshot acc f)
      (fun x hx => h x (List.mem_cons_of_mem _ hx))]
    have hne : k ≠ rel f := (h f (List.mem_cons_self _ _)).symm
    cases hsnap : lookupIndex snapshot (rel f) with
    | some lm =>
      by_cases hle : mtime f ≤ lm
      · simp [indexFileStep, hsnap, hle]
      · simp [indexFileStep, hsnap, hle, lookupIndex_upsertIndex_ne _ _ hne]
    | none => simp [indexFileStep, hsnap, lookupIndex_upsertIndex_ne _ _ hne]

/-- After a run whose relative paths are pairwise distinct, every
processed file has a stored timestamp at least its mtime. -/
theorem indexLoop_store_covers (rel : String → String) (mtime : String → Nat)
    (db : List (String × Nat)) :
    ∀ (files : List String) (acc : IndexOutcome), (files.map rel).Nodup →
      ∀ f ∈ files,
        lookupIndex acc.store (rel f) = lookupIndex db (rel f) →
        ∃ v, lookupIndex ((indexLoop rel mtime db files acc).store) (rel f) =
          some v ∧ mtime f ≤ v := by
  intro files
  induction files with
  | nil => intro acc _ f hf; exact absurd hf (List.not_mem_nil f)
  | cons f0 rest ih =>
    intro acc hnodup f hf hagree
    have hnodup' := hnodup
    rw [List.map_cons, List.nodup_cons] at hnodup'
    obtain ⟨hnotin, hrestnodup⟩ := hnodup'
    simp only [indexLoop]
    rcases List.mem_cons.mp hf with hf0 | hfr
    · subst hf0
      have hnot : ∀ x ∈ rest, rel x ≠ rel f :=
        fun x hx hcontra => hnotin (hcontra ▸ List.mem_map_of_mem rel hx)
      rw [indexLoop_store_untouched rel mtime db (rel f) rest _ hnot]
      cases hsnap : lookupIndex db (rel f) with
      | some lm =>
        by_cases hle : mtime f ≤ lm
        · refine ⟨lm, ?_, hle⟩
          simp only [indexFileStep, hsnap, hle, if_true]
          rw [hagree, hsnap]
        · refine ⟨mtime f, ?_, le_rfl⟩
          simp [indexFileStep, hsnap, hle, lookupIndex_upsertIndex_self]
      | none =>
        refine ⟨mtime f, ?_, le_rfl⟩
        simp [indexFileStep, hsnap, lookupIndex_upsertIndex_self]
    · have hne : rel f ≠ rel f0 := by
        intro hcontra
        exact hnotin (hcontra ▸ List.mem_map_of_mem rel hfr)
      refine ih (indexFileStep rel mtime db acc f0) hrestnodup f hfr ?_
      cases hsnap : lookupIndex db (rel f0) with
      | some lm =>
        by_cases hle : mtime f0 ≤ lm
        · simpa [indexFileStep, hsnap, hle] using hagree
        · rw [show (indexFileStep rel mtime db acc f0).store =
            upsertIndex acc.store (rel f0) (mtime f0) by
              simp [indexFileStep, hsnap, hle]]
          rw [lookupIndex_upsertIndex_ne _ _ hne]
          exact hagree
      | none =>
        rw [show (indexFileStep rel mtime db acc f0).store =
          upsertIndex acc.store (rel f0) (mtime f0) by
            simp [indexFileStep, hsnap]]
        rw [lookupIndex_upsertIndex_ne _ _ hne]
        exact hagree

/-- A run in which every file's snapshot timestamp is at least its mtime
only counts skips: nothing is indexed and the store is untouched. -/
theorem indexLoop_all_skipped (rel : String → String) (mtime : String → Nat)
    (snapshot : List (String × Nat)) :
    ∀ (files : List String) (acc : IndexOutcome),
      (∀ f ∈ files, ∃ v, lookupIndex snapshot (rel f) = some v ∧ mtime f ≤ v) →
      indexLoop rel mtime snapshot files acc =
        { acc with skippedFiles := acc.skippedFiles + files.length } := by
  intro files
  induction files with
  | nil => intro acc _; simp [indexLoop]
  | cons f rest ih =>
    intro acc h
    obtain ⟨v, hv, hle⟩ := h f (List.mem_cons_self _ _)
    simp only [indexLoop]
    have hstep : indexFileStep rel mtime snapshot acc f =
        { acc with skippedFiles := acc.skippedFiles + 1 } := by
      simp [indexFileStep, hv, hle]
    rw [hstep, ih _ (fun x hx => h x (List.mem_cons_of_mem _ hx))]
    simp [Nat.add_assoc, Nat.add_comm 1 rest.length]

/-- C7: indexing a project twice in succession with unchanged file mtimes
yields `indexedFiles = 0` on the second run: every file's stored
`lastModified` is at least its current mtime, so all files are counted in
`skippedFiles` and no summary/embedding is regenerated (the store is
unchanged).  The hypothesis says the walk's files map to pairwise
distinct relative paths, which holds for distinct absolute paths under
one project root. -/
theorem claim_C7_reindex_idempotent (rel : String → String)
    (mtime : String → Nat) (files : List String) (db : List (String × Nat))
    (hinj : (files.map rel).Nodup) :
    (indexProject rel mtime files
      (indexProject rel mtime files db).store).indexedFiles = 0 ∧
    (indexProject rel mtime files
      (indexProject rel mtime files db).store).skippedFiles = files.length ∧
    (indexProject rel mtime files
      (indexProject rel mtime files db).store).store =
      (indexProject rel mtime files db).store := by
  have hcover : ∀ f ∈ files,
      ∃ v, lookupIndex (indexProject rel mtime files db).store (rel f) =
        some v ∧ mtime f ≤ v := by
    intro f hf
    exact indexLoop_store_covers rel mtime db files ⟨0, 0, db⟩ hinj f hf rfl
  have hrun2 := indexLoop_all_skipped rel mtime
    (indexProject rel mtime files db).store files
    ⟨0, 0, (indexProject rel mtime files db).store⟩ hcover
  unfold indexProject at hrun2 ⊢
  rw [hrun2]
  exact ⟨rfl, by simp, rfl⟩

/-- C7 witness: two files with identity-relative paths and constant
mtime; re-indexing after a first run from an empty store indexes nothing
and skips both. -/
theorem claim_C7_witness :
    ((["x", "y"].map (fun s => s)).Nodup) ∧
    (indexProject (fun s => s) (fun _ => 5) ["x", "y"]
      (indexProject (fun s => s) (fun _ => 5) ["x", "y"] []).store).indexedFiles
      = 0 ∧
    (indexProject (fun s => s) (fun _ => 5) ["x", "y"]
      (indexProject (fun s => s) (fun _ => 5) ["x", "y"] []).store).skippedFiles
      = 2 ∧
    (indexProject (fun s => s) (fun _ => 5) ["x", "y"]
      (indexProject (fun s => s) (fun _ => 5) ["x", "y"] []).store).store =
      (indexProject (fun s => s) (fun _ => 5) ["x", "y"] []).store :=
  ⟨by decide,
   (claim_C7_reindex_idempotent (fun s => s) (fun _ => 5) ["x", "y"] []
      (by decide)).1,
   (claim_C7_reindex_idempotent (fun s => s) (fun _ => 5) ["x", "y"] []
      (by decide)).2.1,
   (claim_C7_reindex_idempotent (fun s => s) (fun _ => 5) ["x", "y"] []
      (by decide)).2.2⟩

/-! Lemmas about the symbol extractor. -/

theorem findPythonBlockEndAux_ge (lines : List String) (ind : Nat) :
    ∀ fuel i, i ≤ findPythonBlockEndAux lines ind fuel i := by
  intro fuel
  induction fuel with
  | zero => intro i; simp [findPythonBlockEndAux]
  | succ k ih =>
    intro i
    simp only [findPythonBlockEndAux]
    cases hg : lines.get? i with
    | none => simp
    | some line =>
      by_cases h1 : jsTrim line = ""
      · simp only [h1, if_true]
        exact le_trans (Nat.le_succ i) (ih (i + 1))
      · by_cases h2 : getIndentLevel line ≤ ind
        · simp [h1, h2]
        · simp only [h1, h2, if_false]
          exact le_trans (Nat.le_succ i) (ih (i + 1))

theorem findPythonBlockEndAux_le (lines : List String) (ind : Nat) :
    ∀ fuel i, i ≤ lines.length →
      findPythonBlockEndAux lines ind fuel i ≤ lines.length := by
  intro fuel
  induction fuel with
  | zero => intro i h; simpa [findPythonBlockEndAux] using h
  | succ k ih =>
    intro i h
    simp only [findPythonBlockEndAux]
    cases hg : lines.get? i with
    | none => simpa using h
    | some line =>
      have hlt : i < lines.length := by
        by_contra hcon
        rw [List.get?_eq_none.mpr (Nat.le_of_not_lt hcon)] at hg
        exact absurd hg (by simp)
      by_cases h1 : jsTrim line = ""
      · simp only [h1, if_true]
        exact ih (i + 1) hlt
      · by_cases h2 : getIndentLevel line ≤ ind
        · simp only [h1, h2, if_true, if_false]
          exact Nat.le_of_lt hlt
        · simp only [h1, h2, if_false]
          exact ih (i + 1) hlt

theorem findPythonBlockEnd_ge (lines : List String) (i : Nat) :
    i + 1 ≤ findPythonBlockEnd lines i :=
  findPythonBlockEndAux_ge lines _ lines.length (i + 1)

theorem findPythonBlockEnd_le (lines : List String) (i : Nat)
    (hi : i < lines.length) : findPythonBlockEnd lines i ≤ lines.length :=
  findPythonBlockEndAux_le lines _ lines.length (i + 1) hi

/-- The line range and code slice produced for a Python block starting at
0-based line `i` satisfy the symbol invariant. -/
theorem pyBlockSpec (lines : List String) (i : Nat) (hi : i < lines.length) :
    i + 1 ≤ findPythonBlockEnd lines i ∧
    findPythonBlockEnd lines i ≤ lines.length ∧
    sliceJoin lines i (findPythonBlockEnd lines i) =
      lineSpan lines (i + 1) (findPythonBlockEnd lines i) := by
  refine ⟨findPythonBlockEnd_ge lines i, findPythonBlockEnd_le lines i hi, ?_⟩
  simp [sliceJoin, lineSpan, Nat.add_sub_cancel, Nat.succ_sub_succ]

/-- C9: every symbol extracted from a file has `lineStart ≤ lineEnd`
(1-based inclusive), the range lies within the file, and the text of the
file spanned by those lines equals the symbol's `code`.  For the
TypeScript/JavaScript path the 0-based positions come from the external
`typescript` parser, whose start position never exceeds its end
position (`startLine0 ≤ endLine0`). -/
theorem claim_C9_line_ranges_and_slices :
    (∀ (matchDef matchCls : String → Option String) (content : String),
      ∀ s ∈ parsePythonFile matchDef matchCls content,
        s.lineStart ≤ s.lineEnd ∧
        s.lineEnd ≤ (splitLines content).length ∧
        s.code = lineSpan (splitLines content) s.lineStart s.lineEnd) ∧
    (∀ (name : String) (k : SymbolKind) (startLine0 endLine0 : Nat)
        (content : String), startLine0 ≤ endLine0 →
      (createSymbol name k startLine0 endLine0 content).lineStart ≤
        (createSymbol name k startLine0 endLine0 content).lineEnd ∧
      (createSymbol name k startLine0 endLine0 content).code =
        lineSpan (splitLines content)
          (createSymbol name k startLine0 endLine0 content).lineStart
          (createSymbol name k startLine0 endLine0 content).lineEnd) := by
  constructor
  · intro matchDef matchCls content s hs
    obtain ⟨i, hi, heq⟩ := List.mem_filterMap.mp hs
    rw [List.mem_range] at hi
    simp only at heq
    by_cases h1 : strStartsWith
        (jsTrim ((splitLines content).getD i "")) "def " = true
    · rw [if_pos h1] at heq
      cases hmd : matchDef (jsTrim ((splitLines content).getD i "")) with
      | none => rw [hmd] at heq; exact absurd heq (by simp)
      | some nm =>
        rw [hmd] at heq
        have hs2 := (Option.some.injEq _ _).mp heq
        subst hs2
        obtain ⟨hge, hle, hspan⟩ := pyBlockSpec (splitLines content) i hi
        exact ⟨hge, hle, hspan⟩
    · rw [if_neg h1] at heq
      by_cases h2 : strStartsWith
          (jsTrim ((splitLines content).getD i "")) "class " = true
      · rw [if_pos h2] at heq
        cases hmc : matchCls (jsTrim ((splitLines content).getD i "")) with
        | none => rw [hmc] at heq; exact absurd heq (by simp)
        | some nm =>
          rw [hmc] at heq
          have hs2 := (Option.some.injEq _ _).mp heq
          subst hs2
          obtain ⟨hge, hle, hspan⟩ := pyBlockSpec (splitLines content) i hi
          exact ⟨hge, hle, hspan⟩
      · rw [if_neg h2] at heq
        exact absurd heq (by simp)
  · intro name k startLine0 endLine0 content h
    refine ⟨by simpa [createSymbol] using Nat.succ_le_succ h, ?_⟩
    simp [createSymbol, sliceJoin, lineSpan, Nat.add_sub_cancel,
      Nat.succ_sub_succ]

/-- C9 witness: the indentation heuristic on `"def f():\n  return 1"`
produces exactly the symbol `pySymW`, whose range and code satisfy the
invariant; the TypeScript `createSymbol` at 0-based lines 0..1 of the
same content does too. -/
theorem claim_C9_witness :
    (pySymW.lineStart ≤ pySymW.lineEnd ∧
     pySymW.lineEnd ≤ (splitLines pyContentW).length ∧
     pySymW.code = lineSpan (splitLines pyContentW) pySymW.lineStart
       pySymW.lineEnd) ∧
    ((createSymbol "f" SymbolKind.function 0 1 pyContentW).lineStart ≤
       (createSymbol "f" SymbolKind.function 0 1 pyContentW).lineEnd ∧
     (createSymbol "f" SymbolKind.function 0 1 pyContentW).code =
       lineSpan (splitLines pyContentW)
         (createSymbol "f" SymbolKind.function 0 1 pyContentW).lineStart
         (createSymbol "f" SymbolKind.function 0 1 pyContentW).lineEnd) :=
  ⟨claim_C9_line_ranges_and_slices.1 (fun _ => some "f") (fun _ => none)
      pyContentW pySymW (by decide),
   claim_C9_line_ranges_and_slices.2 "f" SymbolKind.function 0 1 pyContentW
      (by decide)⟩

/-! Lemmas about the batched explanation parsing. -/

/-- C2 counterexample: a batch of two symbols whose provider response is
the well-formed JSON array `[]` — `parseMultipleResponse` maps over the
parsed array without padding, so `explainMultipleSymbols` returns 0
entries instead of 2, refuting the unconditional exactly-N claim. -/
theorem claim_C2_counterexample :
    explainMultipleSymbols true (fun _ => Except.ok (RawResponse.arr []))
      [symA, symB] = Except.ok ([] : List ExplanationResponse) ∧
    ([] : List ExplanationResponse).length ≠ [symA, symB].length := by
  exact ⟨rfl, by decide⟩

/-- C2 (amended): when the provider's raw response fails to parse as a
JSON array, `parseMultipleResponse` synthesizes exactly N placeholder
entries; when it parses as an array of M items, the result has exactly M
entries, the i-th entry built from the i-th item (with per-field
placeholder defaults) — which equals N only when the provider returned
exactly N items. -/
theorem claim_C2_amended :
    (∀ n, (parseMultipleResponse RawResponse.unparseable n).length = n) ∧
    (∀ n, (parseMultipleResponse RawResponse.nonArray n).length = n) ∧
    (∀ (items : List PartialExpl) (n : Nat),
      (parseMultipleResponse (RawResponse.arr items) n).length =
        items.length) ∧
    (∀ (items : List PartialExpl) (n i : Nat) (hi : i < items.length)
        (hi2 : i < (parseMultipleResponse (RawResponse.arr items) n).length),
      ((parseMultipleResponse (RawResponse.arr items) n).get ⟨i, hi2⟩).summary
        = jsStrOr (items.get ⟨i, hi⟩).summary
            ("Объяснение " ++ toString (i + 1) ++ " недоступно")) := by
  refine ⟨fun n => by simp [parseMultipleResponse],
          fun n => by simp [parseMultipleResponse],
          fun items n => by simp [parseMultipleResponse],
          fun items n i hi hi2 => ?_⟩
  simp [parseMultipleResponse, List.get_eq_getElem, List.getElem_mapIdx]

/-! Lemmas about the job state machine. -/

theorem jsRoundPct_mono {p q : Nat} (t : Nat) (h : p ≤ q) :
    jsRoundPct p t ≤ jsRoundPct q t := by
  unfold jsRoundPct
  exact Nat.div_le_div_right (by omega)

theorem chunksAux_length_sum {α : Type} (n : Nat) (hn : 0 < n) :
    ∀ (fuel : Nat) (l : List α), l.length ≤ fuel →
      ((chunksAux n fuel l).map List.length).sum = l.length := by
  intro fuel
  induction fuel with
  | zero =>
    intro l hl
    have : l = [] := List.eq_nil_of_length_eq_zero (Nat.le_zero.mp hl)
    subst this; simp [chunksAux]
  | succ k ih =>
    intro l hl
    cases l with
    | nil => simp [chunksAux]
    | cons x xs =>
      have hdrop : ((x :: xs).drop n).length ≤ k := by
        rw [List.length_drop]
        simp only [List.length_cons] at hl ⊢
        omega
      simp only [chunksAux, List.map_cons, List.sum_cons, ih _ hdrop,
        List.length_take, List.length_drop]
      simp only [List.length_cons]
      omega

theorem chunksOf_length_sum {α : Type} (n : Nat) (hn : 0 < n) (l : List α) :
    ((chunksOf n l).map List.length).sum = l.length :=
  chunksAux_length_sum n hn l.length l le_rfl

theorem procPcts_append (xs ys : List (JobStatus × Nat)) :
    procPcts (xs ++ ys) = procPcts xs ++ procPcts ys := by
  simp [procPcts, List.filter_append]

theorem procPcts_all_cancelled (w : List (JobStatus × Nat))
    (h : ∀ x ∈ w, x.1 = JobStatus.cancelled) : procPcts w = [] := by
  have : w.filter (fun x => x.1 == JobStatus.processing) = [] := by
    rw [List.filter_eq_nil_iff]
    intro x hx
    rw [h x hx]
    simp
  simp [procPcts, this]

/-- Lemma: `checkCancellation` appends at most the `cancelAnalysis` write, whose
status is CANCELLED. -/
theorem simCheckCancellation_writes (cancelAt : Option Nat) (s : SimState) :
    ∃ w, (simCheckCancellation cancelAt s).1.writes = s.writes ++ w ∧
      ∀ x ∈ w, x.1 = JobStatus.cancelled := by
  cases cancelAt with
  | none => exact ⟨[], by simp [simCheckCancellation], by simp⟩
  | some k =>
    by_cases hk : s.cps = k
    · by_cases hterm : s.report.status = JobStatus.completed ∨
        s.report.status = JobStatus.failed
      · exact ⟨[], by simp [simCheckCancellation, hk, cancelAnalysisApply,
          hterm], by simp⟩
      · refine ⟨[(JobStatus.cancelled, 0)], ?_, by simp⟩
        simp [simCheckCancellation, hk, cancelAnalysisApply, hterm]
    · exact ⟨[], by simp [simCheckCancellation, hk], by simp⟩

/-- A checkpoint that does not raise leaves the job record unchanged. -/
theorem simCheckCancellation_report (cancelAt : Option Nat) (s : SimState)
    (h : (simCheckCancellation cancelAt s).2 = false) :
    (simCheckCancellation cancelAt s).1.report = s.report := by
  cases cancelAt with
  | none => simp [simCheckCancellation]
  | some k =>
    by_cases hk : s.cps = k
    · by_cases hterm : s.report.status = JobStatus.completed ∨
        s.report.status = JobStatus.failed
      · simp [simCheckCancellation, hk, cancelAnalysisApply, hterm]
      · exfalso
        simp [simCheckCancellation, hk, cancelAnalysisApply, hterm] at h
    · simp [simCheckCancellation, hk]

/-- With no scheduled cancel, a checkpoint never changes the record and
raises only if the status already reads CANCELLED. -/
theorem simCheckCancellation_none (s : SimState) :
    (simCheckCancellation none s).1.report = s.report ∧
    (simCheckCancellation none s).2 =
      decide (s.report.status = JobStatus.cancelled) := by
  simp [simCheckCancellation]

/-- The batch loop appends only CANCELLED-status writes (it performs no
progress updates of its own). -/
theorem explainBatches_writes (cancelAt : Option Nat) (api : Bool)
    (callRaw : List CodeSymbol → Except Unit RawResponse) (fp : String) :
    ∀ (bs : List (List CodeSymbol)) (cnt : Nat) (s : SimState),
      ∃ w, (explainBatches cancelAt api callRaw fp bs cnt s).1.writes =
        s.writes ++ w ∧ ∀ x ∈ w, x.1 = JobStatus.cancelled := by
  intro bs
  induction bs with
  | nil => intro cnt s; exact ⟨[], by simp [explainBatches], by simp⟩
  | cons batch rest ih =>
    intro cnt s
    obtain ⟨w0, hw0, hcw0⟩ := simCheckCancellation_writes cancelAt s
    by_cases hth : (simCheckCancellation cancelAt s).2 = true
    · simp only [explainBatches, hth, if_true]
      exact ⟨w0, hw0, hcw0⟩
    · rw [Bool.not_eq_true] at hth
      cases hex : explainMultipleSymbols api callRaw batch with
      | error e =>
        simp only [explainBatches, hth, hex, Bool.false_eq_true, if_false]
        exact ⟨w0, hw0, hcw0⟩
      | ok explanations =>
        by_cases hguard : batch.length < explanations.length
        · simp only [explainBatches, hth, hex, hguard, Bool.false_eq_true,
            if_false, if_true]
          exact ⟨w0, hw0, hcw0⟩
        · simp only [explainBatches, hth, hex, hguard, Bool.false_eq_true,
            if_false]
          obtain ⟨w1, hw1, hcw1⟩ := ih (cnt + explanations.length)
            { (simCheckCancellation cancelAt s).1 with
              rows := (simCheckCancellation cancelAt s).1.rows ++
                (explanations.zip batch).map
                  (fun pr => mkRow fp pr.1 pr.2) }
          refine ⟨w0 ++ w1, ?_, ?_⟩
          · rw [hw1]
            simp [hw0]
          · intro x hx
            rcases List.mem_append.mp hx with h | h
            · exact hcw0 x h
            · exact hcw1 x h

/-- If no cancellation propagates out of the batch loop, the job record
is unchanged by it. -/
theorem explainBatches_report (cancelAt : Option Nat) (api : Bool)
    (callRaw : List CodeSymbol → Except Unit RawResponse) (fp : String) :
    ∀ (bs : List (List CodeSymbol)) (cnt : Nat) (s : SimState),
      (explainBatches cancelAt api callRaw fp bs cnt s).2.2 = false →
      (explainBatches cancelAt api callRaw fp bs cnt s).1.report =
        s.report := by
  intro bs
  induction bs with
  | nil => intro cnt s _; simp [explainBatches]
  | cons batch rest ih =>
    intro cnt s h
    by_cases hth : (simCheckCancellation cancelAt s).2 = true
    · simp only [explainBatches, hth, if_true] at h
      exact absurd h (by simp)
    · rw [Bool.not_eq_true] at hth
      have hrep := simCheckCancellation_report cancelAt s hth
      cases hex : explainMultipleSymbols api callRaw batch with
      | error e =>
        simp only [explainBatches, hth, hex, Bool.false_eq_true, if_false]
        exact hrep
      | ok explanations =>
        by_cases hguard : batch.length < explanations.length
        · simp only [explainBatches, hth, hex, hguard, Bool.false_eq_true,
            if_false, if_true]
          exact hrep
        · simp only [explainBatches, hth, hex, hguard, Bool.false_eq_true,
            if_false] at h ⊢
          rw [ih _ _ h]
          exact hrep

/-- Without a scheduled cancel, the batch loop never raises a
cancellation. -/
theorem explainBatches_noCancel (api : Bool)
    (callRaw : List CodeSymbol → Except Unit RawResponse) (fp : String) :
    ∀ (bs : List (List CodeSymbol)) (cnt : Nat) (s : SimState),
      s.report.status ≠ JobStatus.cancelled →
      (explainBatches none api callRaw fp bs cnt s).2.2 = false := by
  intro bs
  induction bs with
  | nil => intro cnt s _; simp [explainBatches]
  | cons batch rest ih =>
    intro cnt s hst
    obtain ⟨hrep, hflag⟩ := simCheckCancellation_none s
    have hth : (simCheckCancellation none s).2 = false := by
      rw [hflag]; simpa using hst
    cases hex : explainMultipleSymbols api callRaw batch with
    | error e =>
      simp [explainBatches, hth, hex]
    | ok explanations =>
      by_cases hguard : batch.length < explanations.length
      · simp [explainBatches, hth, hex, hguard]
      · simp only [explainBatches, hth, hex, hguard, Bool.false_eq_true,
          if_false]
        exact ih _ _ (by rw [hrep]; exact hst)

/-- Under a cooperative provider (a well-formed array with one item per
requested symbol), the batch loop explains every symbol handed to it. -/
theorem explainBatches_goodCount
    (callRaw : List CodeSymbol → Except Unit RawResponse) (fp : String) :
    ∀ (bs : List (List CodeSymbol)) (cnt : Nat) (s : SimState),
      s.report.status ≠ JobStatus.cancelled →
      (∀ b ∈ bs, ∃ items, callRaw b = Except.ok (RawResponse.arr items) ∧
        items.length = b.length) →
      (explainBatches none true callRaw fp bs cnt s).2.1 =
        cnt + (bs.map List.length).sum := by
  intro bs
  induction bs with
  | nil => intro cnt s _ _; simp [explainBatches]
  | cons batch rest ih =>
    intro cnt s hst hgood
    obtain ⟨hrep, hflag⟩ := simCheckCancellation_none s
    have hth : (simCheckCancellation none s).2 = false := by
      rw [hflag]; simpa using hst
    obtain ⟨items, hca, hlen⟩ := hgood batch (List.mem_cons_self _ _)
    have hex : explainMultipleSymbols true callRaw batch =
        Except.ok (parseMultipleResponse (RawResponse.arr items)
          batch.length) := by
      simp [explainMultipleSymbols, hca]
    have hexp : (parseMultipleResponse (RawResponse.arr items)
        batch.length).length = batch.length := by
      simp [parseMultipleResponse, hlen]
    have hguard : ¬batch.length <
        (parseMultipleResponse (RawResponse.arr items) batch.length).length :=
      by rw [hexp]; omega
    simp only [explainBatches, hth, hex, hguard, Bool.false_eq_true, if_false]
    rw [ih _ _ (by rw [hrep]; exact hst)
      (fun b hb => hgood b (List.mem_cons_of_mem _ hb))]
    rw [hexp]
    simp [Nat.add_assoc]

/-- Lemma: `explainSymbols` appends only CANCELLED-status writes. -/
theorem explainSymbolsRun_writes (cancelAt : Option Nat) (api : Bool)
    (callRaw : List CodeSymbol → Except Unit RawResponse)
    (maxSymbols : Option Nat) (pf : ParsedFile) (s : SimState) :
    ∃ w, (explainSymbolsRun cancelAt api callRaw maxSymbols pf s).1.writes =
      s.writes ++ w ∧ ∀ x ∈ w, x.1 = JobStatus.cancelled := by
  by_cases hapi : api = false
  · refine ⟨[], ?_, by simp⟩
    simp [explainSymbolsRun, hapi]
  · by_cases hlen : (pf.symbols.take (jsOrNat maxSymbols 50)).length = 0
    · refine ⟨[], ?_, by simp⟩
      simp [explainSymbolsRun, hapi, hlen]
    · have h := explainBatches_writes cancelAt api callRaw pf.filePath
        (chunksOf 5 (pf.symbols.take (jsOrNat maxSymbols 50))) 0 s
      simp only [explainSymbolsRun] at h ⊢
      rw [if_neg hapi, if_neg hlen]
      exact h

/-- If `explainSymbols` does not propagate a cancellation, the job record
is unchanged. -/
theorem explainSymbolsRun_report (cancelAt : Option Nat) (api : Bool)
    (callRaw : List CodeSymbol → Except Unit RawResponse)
    (maxSymbols : Option Nat) (pf : ParsedFile) (s : SimState)
    (h : (explainSymbolsRun cancelAt api callRaw maxSymbols pf s).2.2 = false) :
    (explainSymbolsRun cancelAt api callRaw maxSymbols pf s).1.report =
      s.report := by
  by_cases hapi : api = false
  · simp [explainSymbolsRun, hapi]
  · by_cases hlen : (pf.symbols.take (jsOrNat maxSymbols 50)).length = 0
    · simp [explainSymbolsRun, hapi, hlen]
    · simp only [explainSymbolsRun] at h ⊢
      rw [if_neg hapi, if_neg hlen] at h ⊢
      exact explainBatches_report cancelAt api callRaw pf.filePath _ _ _ h

/-- Without a scheduled cancel, `explainSymbols` never raises a
cancellation. -/
theorem explainSymbolsRun_noCancel (api : Bool)
    (callRaw : List CodeSymbol → Except Unit RawResponse)
    (maxSymbols : Option Nat) (pf : ParsedFile) (s : SimState)
    (hst : s.report.status ≠ JobStatus.cancelled) :
    (explainSymbolsRun none api callRaw maxSymbols pf s).2.2 = false := by
  by_cases hapi : api = false
  · simp [explainSymbolsRun, hapi]
  · by_cases hlen : (pf.symbols.take (jsOrNat maxSymbols 50)).length = 0
    · simp [explainSymbolsRun, hapi, hlen]
    · simp only [explainSymbolsRun]
      rw [if_neg hapi, if_neg hlen]
      exact explainBatches_noCancel api callRaw pf.filePath _ _ _ hst

/-- Under a cooperative provider, `explainSymbols` explains exactly the
capped symbol list. -/
theorem explainSymbolsRun_goodCount
    (callRaw : List CodeSymbol → Except Unit RawResponse)
    (maxSymbols : Option Nat) (pf : ParsedFile) (s : SimState)
    (hst : s.report.status ≠ JobStatus.cancelled)
    (hgood : ∀ b, ∃ items, callRaw b = Except.ok (RawResponse.arr items) ∧
      items.length = b.length) :
    (explainSymbolsRun none true callRaw maxSymbols pf s).2.1 =
      (pf.symbols.take (jsOrNat maxSymbols 50)).length := by
  by_cases hlen : (pf.symbols.take (jsOrNat maxSymbols 50)).length = 0
  · simp [explainSymbolsRun, hlen]
  · simp only [explainSymbolsRun]
    rw [if_neg (by simp), if_neg hlen]
    rw [explainBatches_goodCount callRaw pf.filePath _ _ _ hst
      (fun b _ => hgood b)]
    rw [chunksOf_length_sum 5 (by omega)]
    simp

/-- Without a scheduled cancel the per-file loop finishes every file,
never raises a cancellation, and preserves the job status. -/
theorem explainLoop_noCancel (api : Bool)
    (callRaw : List CodeSymbol → Except Unit RawResponse)
    (maxSymbols : Option Nat) (t : Nat) :
    ∀ (files : List ParsedFile) (processed explained : Nat) (s : SimState),
      s.report.status ≠ JobStatus.cancelled →
      (explainLoop none api callRaw maxSymbols t files processed explained
        s).2.2.2 = false ∧
      (explainLoop none api callRaw maxSymbols t files processed explained
        s).1.report.status = s.report.status := by
  intro files
  induction files with
  | nil => intro processed explained s _; simp [explainLoop]
  | cons pf rest ih =>
    intro processed explained s hst
    have hflag := explainSymbolsRun_noCancel api callRaw maxSymbols pf s hst
    have hrep := explainSymbolsRun_report none api callRaw maxSymbols pf s hflag
    simp only [explainLoop, hflag, Bool.false_eq_true, if_false]
    have hs2 : (simUpdateProgress
        (explainSymbolsRun none api callRaw maxSymbols pf s).1
        ("Explaining " ++ pf.filePath) (jsRoundPct (processed + 1) t)
        (processed + 1) t).report.status = s.report.status := by
      simp [simUpdateProgress, hrep]
    obtain ⟨h1, h2⟩ := ih (processed + 1)
      (explained + (explainSymbolsRun none api callRaw maxSymbols pf s).2.1)
      _ (by rw [hs2]; exact hst)
    exact ⟨h1, by rw [h2, hs2]⟩

/-- The PROCESSING-status percentages appended by the per-file loop form
a non-decreasing chain continuing any value at most the first per-file
percentage. -/
theorem explainLoop_chain (cancelAt : Option Nat) (api : Bool)
    (callRaw : List CodeSymbol → Except Unit RawResponse)
    (maxSymbols : Option Nat) (t : Nat) :
    ∀ (files : List ParsedFile) (processed explained : Nat) (s : SimState),
      s.report.status = JobStatus.processing →
      ∀ p0, p0 ≤ jsRoundPct (processed + 1) t →
      ∃ w, (explainLoop cancelAt api callRaw maxSymbols t files processed
          explained s).1.writes = s.writes ++ w ∧
        List.Chain' (· ≤ ·) (p0 :: procPcts w) := by
  intro files
  induction files with
  | nil =>
    intro processed explained s _ p0 _
    exact ⟨[], by simp [explainLoop], by simp [procPcts]⟩
  | cons pf rest ih =>
    intro processed explained s hst p0 hp
    obtain ⟨we, hwe, hcwe⟩ :=
      explainSymbolsRun_writes cancelAt api callRaw maxSymbols pf s
    by_cases hflag :
        (explainSymbolsRun cancelAt api callRaw maxSymbols pf s).2.2 = true
    · simp only [explainLoop, hflag, if_true]
      refine ⟨we, hwe, ?_⟩
      rw [procPcts_all_cancelled we hcwe]
      simp
    · rw [Bool.not_eq_true] at hflag
      have hrep :=
        explainSymbolsRun_report cancelAt api callRaw maxSymbols pf s hflag
      simp only [explainLoop, hflag, Bool.false_eq_true, if_false]
      have hs2st : (simUpdateProgress
          (explainSymbolsRun cancelAt api callRaw maxSymbols pf s).1
          ("Explaining " ++ pf.filePath) (jsRoundPct (processed + 1) t)
          (processed + 1) t).report.status = JobStatus.processing := by
        simp [simUpdateProgress, hrep, hst]
      obtain ⟨w1, hw1, hchain1⟩ := ih (processed + 1)
        (explained + (explainSymbolsRun cancelAt api callRaw
          maxSymbols pf s).2.1)
        _ hs2st (jsRoundPct (processed + 1) t)
        (jsRoundPct_mono t (by omega))
      refine ⟨we ++ (JobStatus.processing, jsRoundPct (processed + 1) t) ::
        w1, ?_, ?_⟩
      · rw [hw1]
        simp [simUpdateProgress, hwe, hrep, hst]
      · rw [procPcts_append]
        rw [procPcts_all_cancelled we hcwe]
        have hpc : procPcts ((JobStatus.processing,
            jsRoundPct (processed + 1) t) :: w1) =
            jsRoundPct (processed + 1) t :: procPcts w1 := by
          simp [procPcts]
        rw [hpc]
        simp only [List.nil_append]
        exact List.chain'_cons.mpr ⟨hp, hchain1⟩

theorem mkPayload_filesAnalyzed (env : ExpEnv) (a b c : Nat) :
    (mkPayload env a b c).filesAnalyzed = a := by
  unfold mkPayload
  cases hsy : env.synthesisResult <;> by_cases h : env.queryText.isSome <;>
    simp [h, hsy]

theorem mkPayload_targeted (env : ExpEnv) (a b c : Nat) :
    (mkPayload env a b c).targetedAnalysis = env.queryText.isSome := by
  unfold mkPayload
  cases hsy : env.synthesisResult <;> by_cases h : env.queryText.isSome <;>
    simp [h, hsy]

theorem mkPayload_explanation_error (env : ExpEnv) (a b c : Nat)
    (hq : env.queryText.isSome) (e : Unit)
    (hsynth : env.synthesisResult = Except.error e) :
    (mkPayload env a b c).explanation = none := by
  unfold mkPayload
  rw [if_pos hq, hsynth]

theorem simSetFailed_writes (s : SimState) (msg : String) :
    (simSetFailed s msg).writes = s.writes := rfl

theorem simComplete_writes (s : SimState) (p : ResultPayload) (a b : Nat) :
    (simComplete s p a b).writes = s.writes ++ [(JobStatus.completed, 100)] :=
  rfl

theorem simUpdateProgress_writes (s : SimState) (step : String)
    (pct a b : Nat) : (simUpdateProgress s step pct a b).writes =
      s.writes ++ [(s.report.status, pct)] := rfl

/-- C1: evaluation of the code at the failing input.  A full EXPLANATION
job over one file with one symbol is externally cancelled before the
first symbol-batch checkpoint (the CANCELLED write does land, as the
trace shows); `ExplanationService.performExplanation`'s catch-all then
overwrites the status with FAILED, after which
`AnalysisService.performAnalysis` finds a non-CANCELLED status and
finishes with COMPLETED — the job does not remain CANCELLED. -/
theorem claim_C1_cancellation_overwritten :
    (JobStatus.cancelled, 0) ∈ (performAnalysisExplanation envC1
      initState).writes ∧
    (performAnalysisExplanation envC1 initState).report.status =
      JobStatus.completed ∧
    (performAnalysisExplanation envC1 initState).report.status ≠
      JobStatus.cancelled := by
  decide

/-- C3 counterexample: on a one-file job driven through
`AnalysisService`, the percentages written while the job is PROCESSING
are 0, 10, 0, 100 — `performExplanationAnalysis` writes 10 and
`performExplanation` then resets to 0, so the sequence is not
non-decreasing. -/
theorem claim_C3_counterexample :
    procPcts ((performAnalysisExplanation envC3 initState).writes) =
      [0, 10, 0, 100] ∧
    ¬ List.Chain' (· ≤ ·)
      (procPcts ((performAnalysisExplanation envC3 initState).writes)) := by
  have hl : procPcts ((performAnalysisExplanation envC3 initState).writes) =
      [0, 10, 0, 100] := by decide
  refine ⟨hl, ?_⟩
  rw [hl]
  intro h
  obtain ⟨-, h⟩ := List.chain'_cons.mp h
  obtain ⟨h2, -⟩ := List.chain'_cons.mp h
  omega

/-- C3 (amended): the progress percentages written while the job shows
PROCESSING by `ExplanationService.performExplanation` itself (0, then
`round(k/n*100)` per file) are non-decreasing; the original claim fails
only because `AnalysisService.performExplanationAnalysis` writes 10
before `performExplanation` resets the percentage to 0. -/
theorem claim_C3_amended (env : ExpEnv) (s : SimState)
    (hst : s.report.status = JobStatus.processing) :
    List.Chain' (· ≤ ·)
      (procPcts (((performExplanation env s).writes).drop
        s.writes.length)) := by
  cases hcp : computeParsedFiles env with
  | error e =>
    simp only [performExplanation, hcp]
    simp [simSetFailed, List.drop_length, procPcts]
  | ok parsedFiles =>
    simp only [performExplanation, hcp]
    have hs1st : (simUpdateProgress s "Analyzing code structure" 0 0
        parsedFiles.length).report.status = JobStatus.processing := by
      simp [simUpdateProgress, hst]
    obtain ⟨w, hw, hchain⟩ := explainLoop_chain env.cancelAt
      env.apiAvailable env.callRaw env.maxSymbols parsedFiles.length
      parsedFiles 0 0 _ hs1st 0 (Nat.zero_le _)
    by_cases hflag : (explainLoop env.cancelAt env.apiAvailable env.callRaw
        env.maxSymbols parsedFiles.length parsedFiles 0 0
        (simUpdateProgress s "Analyzing code structure" 0 0
          parsedFiles.length)).2.2.2 = true
    · rw [if_pos hflag]
      have hfw : (simSetFailed (explainLoop env.cancelAt env.apiAvailable
          env.callRaw env.maxSymbols parsedFiles.length parsedFiles 0 0
          (simUpdateProgress s "Analyzing code structure" 0 0
            parsedFiles.length)).1 "Analysis was cancelled").writes =
          s.writes ++ ((JobStatus.processing, 0) :: w) := by
        rw [simSetFailed_writes, hw, simUpdateProgress_writes, hst]
        simp
      rw [hfw, List.drop_left]
      have : procPcts ((JobStatus.processing, 0) :: w) = 0 :: procPcts w := by
        simp [procPcts]
      rw [this]
      exact hchain
    · rw [if_neg hflag]
      have hfw : (simComplete (explainLoop env.cancelAt env.apiAvailable
          env.callRaw env.maxSymbols parsedFiles.length parsedFiles 0 0
          (simUpdateProgress s "Analyzing code structure" 0 0
            parsedFiles.length)).1
          (mkPayload env parsedFiles.length
            ((parsedFiles.map (fun f => f.symbols.length)).sum)
            (explainLoop env.cancelAt env.apiAvailable env.callRaw
              env.maxSymbols parsedFiles.length parsedFiles 0 0
              (simUpdateProgress s "Analyzing code structure" 0 0
                parsedFiles.length)).2.2.1)
          (explainLoop env.cancelAt env.apiAvailable env.callRaw
            env.maxSymbols parsedFiles.length parsedFiles 0 0
            (simUpdateProgress s "Analyzing code structure" 0 0
              parsedFiles.length)).2.1 parsedFiles.length).writes =
          s.writes ++ ((JobStatus.processing, 0) ::
            (w ++ [(JobStatus.completed, 100)])) := by
        rw [simComplete_writes, hw, simUpdateProgress_writes, hst]
        simp
      rw [hfw, List.drop_left]
      have hp1 : procPcts ((JobStatus.processing, 0) ::
          (w ++ [(JobStatus.completed, 100)])) = 0 :: procPcts w := by
        rw [show ((JobStatus.processing, 0) ::
            (w ++ [(JobStatus.completed, 100)])) =
            ((JobStatus.processing, 0) :: w) ++
              [(JobStatus.completed, 100)] by simp]
        rw [procPcts_append]
        have h2 : procPcts [(JobStatus.completed, 100)] = [] := by
          simp [procPcts]
        rw [h2]
        simp [procPcts]
      rw [hp1]
      exact hchain

/-- C3 amended witness: the percentages appended by `performExplanation`
on the concrete one-file environment form a non-decreasing chain. -/
theorem claim_C3_witness :
    List.Chain' (· ≤ ·)
      (procPcts (((performExplanation envC3 processingState).writes).drop
        processingState.writes.length)) :=
  claim_C3_amended envC3 processingState rfl

/-- C4 counterexample: a targeted run in which every per-symbol batch
succeeds and the cohesive-synthesis provider call throws.  The error is
swallowed: the job finishes COMPLETED, not FAILED, with the per-symbol
row persisted and no `explanation` in the result. -/
theorem claim_C4_counterexample :
    (performAnalysisExplanation envC4 initState).report.status =
      JobStatus.completed ∧
    (performAnalysisExplanation envC4 initState).report.status ≠
      JobStatus.failed ∧
    (performAnalysisExplanation envC4 initState).rows.length = 1 ∧
    (performAnalysisExplanation envC4 initState).report.result.map
      (fun r => r.explanation) = some none := by
  decide

/-- C4 (amended): a provider error during cohesive-explanation synthesis,
after the per-symbol work, is caught and logged: the job still reaches
COMPLETED, the already-persisted per-symbol rows are exactly those of a
run whose synthesis succeeds, and only the `explanation` field is
missing from the result — the error does not escalate to job-level
FAILED. -/
theorem claim_C4_amended (env : ExpEnv) (s : SimState) (q t : String)
    (hquery : env.queryText = some q) (hreport : env.reportExists = true)
    (huser : env.userIdPresent = true) (hcancel : env.cancelAt = none)
    (hsynth : env.synthesisResult = Except.error ())
    (hst : s.report.status = JobStatus.processing) :
    (performExplanation env s).report.status = JobStatus.completed ∧
    (performExplanation env s).report.result.map (fun r => r.explanation) =
      some none ∧
    (performExplanation env s).rows =
      (performExplanation { env with synthesisResult := Except.ok t }
        s).rows := by
  cases hcp : computeParsedFiles env with
  | error e =>
    exfalso
    unfold computeParsedFiles at hcp
    rw [hquery] at hcp
    simp only [hreport, huser] at hcp
    by_cases hh : env.searchHits.length = 0 <;> simp [hh] at hcp
  | ok pfs =>
    have hcp2 : computeParsedFiles
        { env with synthesisResult := Except.ok t } = Except.ok pfs := hcp
    rw [show ({ env with synthesisResult := Except.ok t } : ExpEnv).cancelAt
      = env.cancelAt from rfl, hcancel] at hcp2
    have hs1st : (simUpdateProgress s "Analyzing code structure" 0 0
        pfs.length).report.status ≠ JobStatus.cancelled := by
      simp [simUpdateProgress, hst]
    obtain ⟨hflag, _⟩ := explainLoop_noCancel env.apiAvailable env.callRaw
      env.maxSymbols pfs.length pfs 0 0 _ hs1st
    have hexp := mkPayload_explanation_error env pfs.length
      ((pfs.map (fun f => f.symbols.length)).sum)
      (explainLoop none env.apiAvailable env.callRaw env.maxSymbols
        pfs.length pfs 0 0 (simUpdateProgress s "Analyzing code structure"
          0 0 pfs.length)).2.2.1 (by simp [hquery]) () hsynth
    simp only [performExplanation, hcp, hcp2, hcancel, hflag,
      Bool.false_eq_true, if_false]
    exact ⟨by simp [simComplete], by simp [simComplete, hexp],
      by simp [simComplete]⟩

/-- C4 amended witness: the concrete targeted environment with a failing
synthesis completes, omits the explanation, and persists the same rows
as its synthesis-succeeding twin. -/
theorem claim_C4_witness :
    (performExplanation envC4 processingState).report.status =
      JobStatus.completed ∧
    (performExplanation envC4 processingState).report.result.map
      (fun r => r.explanation) = some none ∧
    (performExplanation envC4 processingState).rows =
      (performExplanation { envC4 with synthesisResult := Except.ok "text" }
        processingState).rows :=
  claim_C4_amended envC4 processingState "how does auth work" "text"
    rfl rfl rfl rfl rfl rfl

/-- C8: a targeted (query-present) run whose semantic retrieval returns
zero hits falls back to parsing the full project instead of raising an
error, and (absent cancellation) the job still reaches COMPLETED, with
`result.filesAnalyzed` counting the full-project parse and
`targetedAnalysis = true`. -/
theorem claim_C8_zero_hits_fallback (env : ExpEnv) (s : SimState)
    (q : String) (hquery : env.queryText = some q)
    (hreport : env.reportExists = true) (huser : env.userIdPresent = true)
    (hhits : env.searchHits = []) (hcancel : env.cancelAt = none)
    (hst : s.report.status = JobStatus.processing) :
    (performExplanation env s).report.status = JobStatus.completed ∧
    (performExplanation env s).report.result.map (fun r => r.filesAnalyzed) =
      some env.parseProjectResult.length ∧
    (performExplanation env s).report.result.map
      (fun r => r.targetedAnalysis) = some true := by
  have hcp : computeParsedFiles env = Except.ok env.parseProjectResult := by
    unfold computeParsedFiles
    rw [hquery]
    simp [hreport, huser, hhits]
  have hs1st : (simUpdateProgress s "Analyzing code structure" 0 0
      env.parseProjectResult.length).report.status ≠ JobStatus.cancelled := by
    simp [simUpdateProgress, hst]
  obtain ⟨hflag, _⟩ := explainLoop_noCancel env.apiAvailable env.callRaw
    env.maxSymbols env.parseProjectResult.length env.parseProjectResult 0 0
    _ hs1st
  simp only [performExplanation, hcp, hcancel, hflag, Bool.false_eq_true,
    if_false]
  refine ⟨by simp [simComplete], ?_, ?_⟩
  · simp [simComplete, mkPayload_filesAnalyzed]
  · simp [simComplete, mkPayload_targeted, hquery]

/-- C8 witness: the concrete zero-hit targeted environment completes and
analyzes the full project. -/
theorem claim_C8_witness :
    (performExplanation envC8 processingState).report.status =
      JobStatus.completed ∧
    (performExplanation envC8 processingState).report.result.map
      (fun r => r.filesAnalyzed) = some envC8.parseProjectResult.length ∧
    (performExplanation envC8 processingState).report.result.map
      (fun r => r.targetedAnalysis) = some true :=
  claim_C8_zero_hits_fallback envC8 processingState "how does auth work"
    rfl rfl rfl rfl rfl rfl

/-- C10: the cap expression `options.maxSymbols || 50` treats an explicit
0 as absent, so with `maxSymbols = 0` the file's first
`min 50 (number of symbols)` symbols are explained (under a cooperative
provider and no cancellation) rather than zero. -/
theorem claim_C10_maxSymbols_zero :
    jsOrNat (some 0) 50 = 50 ∧
    ∀ (callRaw : List CodeSymbol → Except Unit RawResponse) (pf : ParsedFile)
      (s : SimState), s.report.status = JobStatus.processing →
      (∀ b, ∃ items, callRaw b = Except.ok (RawResponse.arr items) ∧
        items.length = b.length) →
      (explainSymbolsRun none true callRaw (some 0) pf s).2.1 =
        min 50 pf.symbols.length := by
  refine ⟨rfl, ?_⟩
  intro callRaw pf s hst hgood
  rw [explainSymbolsRun_goodCount callRaw (some 0) pf s
    (by rw [hst]; decide) hgood]
  simp [jsOrNat]

/-- C10 witness: with `maxSymbols = 0`, a two-symbol file and a
cooperative provider, both symbols are explained (not zero). -/
theorem claim_C10_witness :
    jsOrNat (some 0) 50 = 50 ∧
    (explainSymbolsRun none true goodRaw (some 0)
      ⟨"a.ts", "typescript", [symA, symB]⟩ processingState).2.1 =
      min 50 ([symA, symB].length) :=
  ⟨claim_C10_maxSymbols_zero.1,
   claim_C10_maxSymbols_zero.2 goodRaw ⟨"a.ts", "typescript", [symA, symB]⟩
     processingState rfl
     (fun b => ⟨b.map (fun _ => ⟨some "s", some "d", none⟩), rfl, by simp⟩)⟩

/-- C2 amended witness: the placeholder count for an unparseable and a
non-array response, the pass-through count for a one-item array, and the
order-preserving summary of its first entry, at concrete inputs. -/
theorem claim_C2_witness :
    (parseMultipleResponse RawResponse.unparseable 3).length = 3 ∧
    (parseMultipleResponse RawResponse.nonArray 3).length = 3 ∧
    (parseMultipleResponse
      (RawResponse.arr [⟨some "a", some "b", none⟩]) 5).length = 1 ∧
    ((parseMultipleResponse
      (RawResponse.arr [⟨some "a", some "b", none⟩]) 5).get
        ⟨0, by decide⟩).summary = "a" :=
  ⟨claim_C2_amended.1 3, claim_C2_amended.2.1 3,
   claim_C2_amended.2.2.1 [⟨some "a", some "b", none⟩] 5,
   by
     have h := claim_C2_amended.2.2.2 [⟨some "a", some "b", none⟩] 5 0
       (by decide) (by decide)
     rw [h]
     decide⟩

end Dplm
